import Mathlib

/-!
Shallow embedding of the shortcut-autotyper expansion engine
(src/command.rs, src/content.rs, src/sequence.rs, src/combinations.rs).

Strings are modelled as lists of characters (`Str`).  The Unicode character
classes used by the Rust code (`char::is_alphabetic`, `char::is_numeric`,
`char::is_whitespace`) are modelled on their ASCII fragments, which is the
fragment all claims and test data live in; `u8`/`usize` arithmetic of
`str::parse::<usize>` is modelled with `Nat` bounded by `USIZE_MAX = 2^64 - 1`
(64-bit target), since `parse` errors on overflow rather than wrapping.

The process-wide random generator (`rand::thread_rng`) is modelled by an
explicit stream `rng : Nat → Nat` together with a cursor `k : Nat` threaded
through resolution in call order; `gen_range(s..e)` on a non-empty range
returns `s + rng k % (e - s)` and advances the cursor, and on an empty range
(`s ≥ e`) it panics, which the embedding represents by a distinguished
`panic` outcome.
-/

namespace SAT

/-- Strings of the Rust source, modelled as lists of characters. -/
abbrev Str := List Char

/-- `char::is_alphabetic` of the Rust source, on its ASCII fragment:
uppercase or lowercase ASCII letters. -/
def charIsAlphabetic (c : Char) : Bool :=
  (65 ≤ c.toNat && c.toNat ≤ 90) || (97 ≤ c.toNat && c.toNat ≤ 122)

/-- `char::is_ascii_digit`: the characters `'0'`–`'9'`. -/
def charIsAsciiDigit (c : Char) : Bool :=
  48 ≤ c.toNat && c.toNat ≤ 57

/-- `char::is_numeric` of the Rust source, on its ASCII fragment, where it
coincides with `is_ascii_digit`. -/
def charIsNumeric (c : Char) : Bool :=
  charIsAsciiDigit c

/-- `char::is_whitespace` on its ASCII fragment: space, tab, newline,
carriage return. -/
def charIsWhitespace (c : Char) : Bool :=
  c.toNat = 32 || c.toNat = 9 || c.toNat = 10 || c.toNat = 13

/-- `usize::MAX` on the 64-bit target. -/
def USIZE_MAX : Nat := 2 ^ 64 - 1

/-- Numeric value of an ASCII digit character. -/
def digitVal (c : Char) : Nat := c.toNat - 48

/-- The digits-only part of `str::parse::<usize>`: a non-empty all-digit
string evaluates by the usual left fold; values above `usize::MAX`
are a parse error (`PosOverflow`). -/
def parseDigits (cs : Str) : Option Nat :=
  if cs = [] then none
  else if cs.all charIsAsciiDigit then
    let v := cs.foldl (fun a c => a * 10 + digitVal c) 0
    if v ≤ USIZE_MAX then some v else none
  else none

/-- `str::parse::<usize>`: an optional leading `'+'` followed by a
non-empty digit string whose value fits in `usize`. -/
def parseUsize (cs : Str) : Option Nat :=
  match cs with
  | '+' :: rest => parseDigits rest
  | _ => parseDigits cs

/-- The error taxonomy of `src/error.rs` (`ErrType`). -/
inductive ErrType where
  | sequenceNotExist (s : Str)
  | wrongSequenceArg (s : Str)
  | invalidKeyFormat (s : Str)
  | keyIsInSequences (s : Str)
  | keyCannotBeEmpty
  | unknownSequence (s : Str)
  | keyIsInCombinations (s : Str)
  | rangeMustNotBeEmpty (start stop : Nat)
  | argumentMissing (s : Str)
deriving DecidableEq, Repr

/-- The repetition specifier `Times` of `src/command.rs`: a fixed count or a
half-open range. -/
inductive Times where
  | number (n : Nat)
  | range (start stop : Nat)
deriving DecidableEq, Repr

/-- The `Command` structure of `src/command.rs`: a name and an optional
repetition specifier. -/
structure Command where
  name : Str
  times : Option Times
deriving DecidableEq, Repr

/-- `Command::valid_name`: a name must be non-empty and consist of
alphabetic characters only. -/
def validName (name : Str) : Except ErrType Unit :=
  if name = [] then .error .keyCannotBeEmpty
  else if name.all charIsAlphabetic then .ok ()
  else .error (.invalidKeyFormat name)

/-- `Command::are_valid_names`, as the list of collected errors
(the Rust function wraps a non-empty list in `Err`). -/
def areValidNames (names : List Str) : List ErrType :=
  names.filterMap (fun n =>
    match validName n with
    | .ok _ => none
    | .error e => some e)

/-- Index of the first occurrence of the two-character pattern `".."`
(`str::find("..")`; byte and character indices agree on ASCII). -/
def findDotDot : Str → Option Nat
  | [] => none
  | c :: cs =>
    if c = '.' ∧ cs.head? = some '.' then some 0
    else (findDotDot cs).map (· + 1)

/-- `Times::from_str` of `src/command.rs`. -/
def timesFromStr (s : Str) : Except ErrType Times :=
  match parseUsize s with
  | some n => .ok (.number n)
  | none =>
    match findDotDot s with
    | none => .error (.wrongSequenceArg s)
    | some i =>
      match parseUsize (s.take i), parseUsize (s.drop (i + 2)) with
      | some a, some b =>
        if a ≤ b then .ok (.range a b) else .error (.rangeMustNotBeEmpty a b)
      | _, _ => .error (.wrongSequenceArg s)

/-- `Command::from_str` of `src/command.rs`: split at the first ASCII digit;
the prefix is the (validated) name, the suffix the repetition spec.  The
split is taken at the character level, which matches the source exactly
when the char-count index `chars().position()` is also a byte boundary of
the input (in particular on ASCII input); the byte-faithful embedding with
the non-boundary slicing panic is `commandFromStrBytes` below, which
restricts to this function on ASCII (`commandFromStrBytes_ascii`). -/
def commandFromStr (s : Str) : Except ErrType Command :=
  match s.findIdx? charIsAsciiDigit with
  | some i =>
    match validName (s.take i) with
    | .error e => .error e
    | .ok _ =>
      match timesFromStr (s.drop i) with
      | .error e => .error e
      | .ok t => .ok ⟨s.take i, some t⟩
  | none =>
    match validName s with
    | .error e => .error e
    | .ok _ => .ok ⟨s, none⟩

/-- `char::len_utf8`: the UTF-8 byte length of a character. -/
def charUtf8Len (c : Char) : Nat :=
  if c.toNat < 0x80 then 1
  else if c.toNat < 0x800 then 2
  else if c.toNat < 0x10000 then 3
  else 4

/-- Splitting a string at a byte index: `some` of the two halves when the
index falls on a character boundary, `none` (the byte-slicing panic of
`&s[..i]` / `&s[i..]`) otherwise. -/
def splitAtByte : Nat → Str → Option (Str × Str)
  | 0, cs => some ([], cs)
  | _ + 1, [] => none
  | i + 1, c :: cs =>
    if charUtf8Len c ≤ i + 1 then
      match splitAtByte (i + 1 - charUtf8Len c) cs with
      | some (a, b) => some (c :: a, b)
      | none => none
    else none

/-- Byte-faithful `Command::from_str` of `src/command.rs`: the index of the
first ASCII digit comes from `chars().position()` — a character count —
but `&s[..i]` and `&s[i..]` slice at byte index `i`.  When `i` is not a
character boundary (a multi-byte letter precedes the first digit, as in
`é1`) the slicing panics, modelled by `none`; when it is a boundary, the
name is the characters occupying the first `i` bytes.  `commandFromStr`
above is its restriction to inputs where the two indexings agree
(see `commandFromStrBytes_ascii`). -/
def commandFromStrBytes (s : Str) : Option (Except ErrType Command) :=
  match s.findIdx? charIsAsciiDigit with
  | some i =>
    match splitAtByte i s with
    | none => none
    | some (name, suffix) =>
      some (match validName name with
        | .error e => .error e
        | .ok _ =>
          match timesFromStr suffix with
          | .error e => .error e
          | .ok t => .ok ⟨name, some t⟩)
  | none =>
    some (match validName s with
      | .error e => .error e
      | .ok _ => .ok ⟨s, none⟩)

/-- Decimal rendering of a natural number (`Display` for `usize`). -/
def natToStr (n : Nat) : Str :=
  if n = 0 then ['0'] else ((Nat.digits 10 n).map Nat.digitChar).reverse

/-- `Display` for `Times` of `src/command.rs`. -/
def timesToStr : Times → Str
  | .number n => natToStr n
  | .range a b => natToStr a ++ '.' :: '.' :: natToStr b

/-- `Display` for `Command` of `src/command.rs`: the name followed by the
repetition spec's text form (nothing, the fixed integer, or `start..end`). -/
def commandToStr (c : Command) : Str :=
  match c.times with
  | some t => c.name ++ timesToStr t
  | none => c.name

/-- `Command::get_times` of `src/command.rs`, against the explicit random
stream: `None` means one repetition, `Number n` means `n`, and `Range s e`
draws `gen_range(s..e)`, which panics (`none`) when the range is empty. -/
def Command.getTimesR (c : Command) (rng : Nat → Nat) (k : Nat) :
    Option (Nat × Nat) :=
  match c.times with
  | none => some (1, k)
  | some (.number n) => some (n, k)
  | some (.range s e) =>
    if s < e then some (s + rng k % (e - s), k + 1) else none

/-- A template segment of `src/content.rs`: literal text or a positional
variable reference. -/
inductive ContentItem where
  | value (v : Str)
  | varRef (v : Nat)
deriving DecidableEq, Repr

/-- `ContentItem::generate_content`: a literal renders verbatim; a variable
renders the `v`-th argument, or the placeholder text `<v>` when absent. -/
def ContentItem.generateContent (item : ContentItem) (args : List Str) : Str :=
  match item with
  | .value v => v
  | .varRef v =>
    match args.get? v with
    | some s => s
    | none => '<' :: (natToStr v ++ ['>'])

/-- Whether a segment is a literal (no variable reference). -/
def ContentItem.isValue : ContentItem → Bool
  | .value _ => true
  | .varRef _ => false

/-- The `Content` structure of `src/content.rs`: an ordered sequence of
segments. -/
structure Content where
  items : List ContentItem
deriving DecidableEq, Repr

/-- The scanning loop of `Content::from` (`impl From<&str> for Content`),
with the accumulated segments, the pending literal buffer, the pending digit
buffer and the in-placeholder flag explicit.  The `variable.parse().unwrap()`
call of the source panics when the accumulated digit string does not parse
as `usize` (overflow); the embedding returns `none` there. -/
def contentFromAux :
    List Char → List ContentItem → Str → Str → Bool → Option (List ContentItem)
  | [], cont, last, _, _ => some (cont ++ [.value last])
  | c :: cs, cont, last, vbuf, readVar =>
    if readVar then
      if charIsNumeric c then contentFromAux cs cont last (vbuf ++ [c]) true
      else if c = '>' then
        if vbuf ≠ [] then
          match parseUsize vbuf with
          | some v => contentFromAux cs (cont ++ [.value last, .varRef v]) [] [] false
          | none => none
        else contentFromAux cs cont (last ++ ['<', '>']) vbuf false
      else contentFromAux cs cont (last ++ '<' :: (vbuf ++ [c])) [] false
    else
      if c = '<' then contentFromAux cs cont last vbuf true
      else contentFromAux cs cont (last ++ [c]) vbuf false

/-- `Content::from` of `src/content.rs`; `none` models the reachable
`unwrap` panic. -/
def contentFromStr (s : Str) : Option Content :=
  (contentFromAux s [] [] [] false).map Content.mk

/-- `Content::generate_content`: render every segment and concatenate. -/
def Content.generateContent (c : Content) (args : List Str) : Str :=
  (c.items.map (fun i => i.generateContent args)).flatten

/-- `str::repeat`: `n` concatenated copies of `s`. -/
def strRepeat (s : Str) (n : Nat) : Str :=
  (List.replicate n s).flatten

/-- Lookup in an association-list model of `HashMap<String, String>`. -/
def alookup : List (Str × Str) → Str → Option Str
  | [], _ => none
  | (a, b) :: rest, k => if a = k then some b else alookup rest k

/-- The `Sequences` store of `src/sequence.rs`: a mapping from name to raw
template string. -/
structure Sequences where
  entries : List (Str × Str)
deriving DecidableEq, Repr

/-- `Sequences::get`. -/
def Sequences.get (S : Sequences) (key : Str) : Option Str :=
  alookup S.entries key

/-- `Sequences::insert`: validate the key, fail if it is already a sequence
key, otherwise store the raw template. -/
def Sequences.insert (S : Sequences) (key value : Str) :
    Except ErrType Sequences :=
  match validName key with
  | .error e => .error e
  | .ok _ =>
    match S.get key with
    | some _ => .error (.keyIsInSequences key)
    | none => .ok ⟨(key, value) :: S.entries⟩

/-- `Sequences::new`: repeated inserts starting from the empty store. -/
def Sequences.new (l : List (Str × Str)) : Except ErrType Sequences :=
  l.foldlM (fun S kv => S.insert kv.1 kv.2) ⟨[]⟩

/-- `Sequences::get_errors`, as the list of collected key-name errors. -/
def Sequences.getErrorsList (S : Sequences) : List ErrType :=
  areValidNames (S.entries.map Prod.fst)

/-- Decidable equality for `Except` results. -/
instance {ε α : Type} [DecidableEq ε] [DecidableEq α] : DecidableEq (Except ε α) :=
  fun a b =>
    match a, b with
    | .ok x, .ok y =>
      if h : x = y then .isTrue (by rw [h]) else .isFalse (fun hh => h (Except.ok.inj hh))
    | .error x, .error y =>
      if h : x = y then .isTrue (by rw [h]) else .isFalse (fun hh => h (Except.error.inj hh))
    | .ok _, .error _ => .isFalse (fun hh => Except.noConfusion hh)
    | .error _, .ok _ => .isFalse (fun hh => Except.noConfusion hh)

/-- Outcome of one resolution run: a normal result (`Ok` string or error),
a panic of the random draw or of content parsing, or fuel exhaustion of the
embedding (the source recursion has no fuel; `fuelOut` marks the runs the
finite unrolling cannot settle). -/
inductive ROut where
  | panic
  | fuelOut
  | res (r : Except ErrType Str)
deriving DecidableEq, Repr

/-- Modelled from the spec: the current `Sequences::get_sequence_cmd`
taking the argument list, which is missing from `src/` (the snapshot of
`src/sequence.rs` predates it) but is called by
`Combinations::get_sequence_cmd` (src/combinations.rs line 53).  Per the
spec (§4.3 `resolve`): look up the command's name; if absent fail with
sequence-not-found; otherwise parse the stored template through the Content
Templater, render it against `args`, and repeat the rendered string
`times(command)` times by concatenation. -/
def Sequences.getSequenceCmd (S : Sequences) (cmd : Command) (args : List Str)
    (rng : Nat → Nat) (k : Nat) : ROut × Nat :=
  match S.get cmd.name with
  | none => (.res (.error (.sequenceNotExist cmd.name)), k)
  | some t =>
    match contentFromStr t with
    | none => (.panic, k)
    | some cont =>
      match cmd.getTimesR rng k with
      | none => (.panic, k)
      | some (n, k') => (.res (.ok (strRepeat (cont.generateContent args) n)), k')

/-- The `Combinations` store of `src/combinations.rs`: combinations plus the
owned sequence store. -/
structure Combinations where
  combinations : List (Str × Str)
  sequences : Sequences
deriving DecidableEq, Repr

/-- Maximal run of non-whitespace characters and the rest. -/
def takeWord (cs : Str) : Str := cs.takeWhile (fun c => !charIsWhitespace c)

/-- `str::split_whitespace`, written with an explicit word accumulator. -/
def splitWSAux : List Char → Str → List Str
  | [], cur => if cur = [] then [] else [cur]
  | c :: cs, cur =>
    if charIsWhitespace c then
      if cur = [] then splitWSAux cs [] else cur :: splitWSAux cs []
    else splitWSAux cs (cur ++ [c])

/-- `str::split_whitespace`: the maximal non-whitespace runs, in order. -/
def splitWhitespace (s : Str) : List Str := splitWSAux s []

/-- `Combinations::decompose`: split on whitespace and parse every token as
a `Command`, failing at the first parse error. -/
def Combinations.decompose (s : Str) : Except ErrType (List Command) :=
  (splitWhitespace s).mapM commandFromStr

/-- The inner `commands.iter().map(..).collect::<ATResult<String>>()` of
`Combinations::get_sequence_cmd`, over an abstract resolver for single
commands: resolve every command left to right, concatenating and stopping
at the first failure. -/
def onceWith (resolve : Command → Nat → ROut × Nat) :
    List Command → Nat → ROut × Nat
  | [], k => (.res (.ok []), k)
  | cmd :: cmds, k =>
    match resolve cmd k with
    | (.res (.ok s), k₁) =>
      match onceWith resolve cmds k₁ with
      | (.res (.ok rest), k₂) => (.res (.ok (s ++ rest)), k₂)
      | other => other
    | other => other

/-- The outer `(0..times).map(..).collect::<ATResult<String>>()` of
`Combinations::get_sequence_cmd`: run the full pass `n` times,
concatenating and stopping at the first failure. -/
def iterWith (pass : Nat → ROut × Nat) : Nat → Nat → ROut × Nat
  | 0, k => (.res (.ok []), k)
  | n + 1, k =>
    match pass k with
    | (.res (.ok s), k₁) =>
      match iterWith pass n k₁ with
      | (.res (.ok rest), k₂) => (.res (.ok (s ++ rest)), k₂)
      | other => other
    | other => other

/-- `Combinations::get_sequence_cmd` of `src/combinations.rs`, with an
explicit fuel bounding the recursion depth (the source recursion is
unbounded): if the command's name is a combination, decompose the stored
value and run `times(command)` iterations of the decomposed command list,
each iteration resolving the nested commands in order with the same
argument list; otherwise delegate to the sequence store. -/
def getSequenceCmd (C : Combinations) (args : List Str) (rng : Nat → Nat) :
    Nat → Command → Nat → ROut × Nat
  | 0, _, k => (.fuelOut, k)
  | fuel + 1, cmd, k =>
    match alookup C.combinations cmd.name with
    | some v =>
      match Combinations.decompose v with
      | .error e => (.res (.error e), k)
      | .ok cmds =>
        match cmd.getTimesR rng k with
        | none => (.panic, k)
        | some (n, k₁) =>
          iterWith (fun k' => onceWith (getSequenceCmd C args rng fuel) cmds k') n k₁
    | none => C.sequences.getSequenceCmd cmd args rng k

/-- `Combinations::get_sequence`: decompose the key string into a list of
commands and resolve them in order, concatenating. -/
def Combinations.getSequence (fuel : Nat) (C : Combinations) (key : Str)
    (args : List Str) (rng : Nat → Nat) (k : Nat) : ROut × Nat :=
  match Combinations.decompose key with
  | .error e => (.res (.error e), k)
  | .ok cmds => onceWith (getSequenceCmd C args rng fuel) cmds k

/-- `Combinations::insert` of `src/combinations.rs`. -/
def Combinations.insert (C : Combinations) (key value : Str) :
    Except ErrType Combinations :=
  match validName key with
  | .error e => .error e
  | .ok _ =>
    if (C.sequences.get key).isSome then .error (.keyIsInSequences key)
    else if (alookup C.combinations key).isSome then
      .error (.keyIsInCombinations key)
    else
      match Combinations.decompose value with
      | .error e => .error e
      | .ok cmds =>
        match cmds.find? (fun cmd => (C.sequences.get cmd.name).isNone) with
        | some cmd => .error (.sequenceNotExist cmd.name)
        | none => .ok ⟨(key, value) :: C.combinations, C.sequences⟩

/-- `Combinations::new`: start from the given sequence store and empty
combinations, and insert every pair in order. -/
def Combinations.new (S : Sequences) (l : List (Str × Str)) :
    Except ErrType Combinations :=
  l.foldlM (fun C kv => C.insert kv.1 kv.2) ⟨[], S⟩

/-- The per-value error collection of `Combinations::get_errors`: a failed
decomposition contributes its error; otherwise every decomposed command
contributes its invalid-name error, or an unknown-sequence error when its
(valid) name is not a sequence key. -/
def Combinations.valueErrors (C : Combinations) (v : Str) : List ErrType :=
  match Combinations.decompose v with
  | .error e => [e]
  | .ok cmds =>
    cmds.flatMap (fun cmd =>
      match validName cmd.name with
      | .error e => [e]
      | .ok _ =>
        match C.sequences.get cmd.name with
        | some _ => []
        | none => [.unknownSequence cmd.name])

/-- `Combinations::get_errors`, as the list of collected errors: own
key-name errors, then the sequence store's key-name errors, then the
per-value errors of every combination value. -/
def Combinations.getErrorsList (C : Combinations) : List ErrType :=
  areValidNames (C.combinations.map Prod.fst)
    ++ C.sequences.getErrorsList
    ++ (C.combinations.map Prod.snd).flatMap C.valueErrors

/-- Conversion from Lean string literals to the embedding's strings. -/
def strOf (s : String) : Str := s.toList

/-- The in-placeholder flag of the `Content::from` scan after consuming the
given characters (it depends only on the characters, not on the buffers). -/
def scanState : List Char → Bool → Bool
  | [], r => r
  | c :: cs, r => scanState cs (if r then charIsNumeric c else c == '<')

/-- A `Command` satisfying the data model's invariants: a valid name, a
range with `start ≤ end`, and counts representable in `usize`. -/
def isValidCommand (c : Command) : Bool :=
  decide (validName c.name = .ok ()) &&
    match c.times with
    | none => true
    | some (.number n) => decide (n ≤ USIZE_MAX)
    | some (.range a b) => decide (a ≤ b) && decide (b ≤ USIZE_MAX)

/-- One step of the spec-side pass: extend an accumulated successful
resolution by the next command's resolution, propagating failures. -/
def specStep (resolve : Command → Nat → ROut × Nat) (acc : ROut × Nat)
    (cmd : Command) : ROut × Nat :=
  match acc with
  | (.res (.ok s), k') =>
    match resolve cmd k' with
    | (.res (.ok t), k'') => (.res (.ok (s ++ t)), k'')
    | other => other
  | other => other

/-- Follows the spec's words (§4.4 `resolve`): resolve every nested command
in left-to-right order and concatenate the results, stopping at the first
failure. -/
def specPass (resolve : Command → Nat → ROut × Nat) (cmds : List Command)
    (k : Nat) : ROut × Nat :=
  cmds.foldl (specStep resolve) (.res (.ok []), k)

/-- Follows the spec's words (§4.4 `resolve`): the outer repetition wraps
the fully-expanded inner sequence, concatenating one full expansion per
iteration. -/
def specRepeat (pass : Nat → ROut × Nat) : Nat → Nat → ROut × Nat
  | 0, k => (.res (.ok []), k)
  | n + 1, k =>
    match pass k with
    | (.res (.ok s), k₁) =>
      match specRepeat pass n k₁ with
      | (.res (.ok t), k₂) => (.res (.ok (s ++ t)), k₂)
      | other => other
    | other => other

/-- The store invariant maintained by `Combinations::new` / `insert`: every
stored value decomposes successfully with every referenced name a sequence
key, and no combination key is a sequence key. -/
def goodStore (C : Combinations) : Bool :=
  C.combinations.all (fun kv =>
    (match Combinations.decompose kv.2 with
     | .ok cmds => cmds.all (fun cmd => (C.sequences.get cmd.name).isSome)
     | .error _ => false)
    && (C.sequences.get kv.1).isNone)

/-- The stores reachable through the public interface: start from
`Combinations::new`'s empty combination table over a fixed sequence store
and apply successful `insert`s. -/
inductive Built (S : Sequences) : Combinations → Prop where
  | base : Built S ⟨[], S⟩
  | step {C C' : Combinations} (key value : Str) :
      Built S C → C.insert key value = .ok C' → Built S C'

end SAT

namespace SAT

/-- **C3.** Counter-evidence for the resolution half of the claim: the
repetition range `3..3` (start = end) is accepted at parse time, but
`Command::get_times` on `Range(3,3)` calls `gen_range(3..3)` on an empty
range, which panics instead of yielding a repetition count. -/
theorem c3_empty_range_accepted_then_panics :
    commandFromStr (strOf "A3..3") = .ok ⟨strOf "A", some (.range 3 3)⟩ ∧
    Command.getTimesR ⟨strOf "A", some (.range 3 3)⟩ (fun _ => 0) 0 = none := by
  exact ⟨by decide, by decide⟩

/-- **C4.** Counter-evidence: `Content::from` is not total — on the input
`<99999999999999999999>` the accumulated digit string overflows `usize`,
`variable.parse().unwrap()` panics, and parsing produces no `Content`. -/
theorem c4_content_parse_panics_on_overflow :
    contentFromStr (strOf "<99999999999999999999>") = none := by
  decide

/-- **C5 counterexample.** Over the built store with sequence `A` and
combination `Y → "A"`, inserting a combination `Z` whose value references
the existing combination name `Y` is rejected with `SequenceNotExist("Y")`,
not permitted. -/
theorem c5_counterexample :
    Combinations.new ⟨[(strOf "A", strOf "a")]⟩ [(strOf "Y", strOf "A")]
      = .ok ⟨[(strOf "Y", strOf "A")], ⟨[(strOf "A", strOf "a")]⟩⟩ ∧
    Combinations.insert ⟨[(strOf "Y", strOf "A")], ⟨[(strOf "A", strOf "a")]⟩⟩
        (strOf "Z") (strOf "Y")
      = .error (.sequenceNotExist (strOf "Y")) := by
  exact ⟨by decide, by decide⟩

/-- **C6 counterexample.** Over the built store with sequence `A` and
combination `X → "A"`, inserting the key `X` into the sequence store
succeeds although `X` already exists in the combination store:
`Sequences::insert` checks only its own keys. -/
theorem c6_counterexample :
    Combinations.new ⟨[(strOf "A", strOf "a")]⟩ [(strOf "X", strOf "A")]
      = .ok ⟨[(strOf "X", strOf "A")], ⟨[(strOf "A", strOf "a")]⟩⟩ ∧
    (alookup [(strOf "X", strOf "A")] (strOf "X")).isSome = true ∧
    Sequences.insert ⟨[(strOf "A", strOf "a")]⟩ (strOf "X") (strOf "v")
      = .ok ⟨[(strOf "X", strOf "v"), (strOf "A", strOf "a")]⟩ := by
  exact ⟨by decide, by decide, by decide⟩

/-- **C7 counterexample.** The string `"<"` parses to a single empty
literal segment (the pending `<` of an unterminated placeholder is dropped
at end of input), so rendering the parse against no arguments yields `""`,
not `"<"`. -/
theorem c7_counterexample :
    contentFromStr (strOf "<") = some ⟨[.value []]⟩ ∧
    Content.generateContent ⟨[.value []]⟩ [] = [] ∧
    ([] : Str) ≠ strOf "<" := by
  exact ⟨by decide, by decide, by decide⟩

/-- **C5 (amended).** Combination insert checks referenced names only
against the sequence store: with a valid fresh key and a decomposable value,
the insert succeeds exactly when every referenced name is a sequence key,
and otherwise is rejected with `SequenceNotExist` at the first name absent
from the sequence store — in particular a reference to an existing
combination (never a sequence key) is rejected, not deferred. -/
theorem c5_insert_checks_only_sequence_store
    (C : Combinations) (key value : Str) (cmds : List Command)
    (hname : validName key = .ok ())
    (hseq : C.sequences.get key = none)
    (hcomb : alookup C.combinations key = none)
    (hdec : Combinations.decompose value = .ok cmds) :
    C.insert key value
      = match cmds.find? (fun cmd => (C.sequences.get cmd.name).isNone) with
        | some cmd => .error (.sequenceNotExist cmd.name)
        | none => .ok ⟨(key, value) :: C.combinations, C.sequences⟩ := by
  simp only [Combinations.insert, hname, hseq, hcomb, hdec, Option.isSome_none,
    Bool.false_eq_true, if_false]

/-- Witness for C5's amended theorem at the counterexample store. -/
theorem c5_witness :
    Combinations.insert ⟨[(strOf "Y", strOf "A")], ⟨[(strOf "A", strOf "a")]⟩⟩
        (strOf "Z") (strOf "Y")
      = .error (.sequenceNotExist (strOf "Y")) := by
  have h := c5_insert_checks_only_sequence_store
    ⟨[(strOf "Y", strOf "A")], ⟨[(strOf "A", strOf "a")]⟩⟩
    (strOf "Z") (strOf "Y") [⟨strOf "Y", none⟩]
    (by decide) (by decide) (by decide) (by decide)
  simpa using h

/-- **C6 (amended).** Key uniqueness across the two stores: sequence-store
insert checks only its own keys (a successful insert implies only absence
from the sequence store, and a conflict there raises `KeyIsInSequences`),
while combination-store insert checks both stores and names the store
holding the conflict; a successful combination insert preserves
disjointness of the key sets. -/
theorem c6_key_uniqueness :
    (∀ (S : Sequences) (key v : Str), validName key = .ok () →
        (S.get key).isSome = true →
        S.insert key v = .error (.keyIsInSequences key)) ∧
    (∀ (S : Sequences) (key v : Str) (S' : Sequences),
        S.insert key v = .ok S' →
        S.get key = none ∧ S' = ⟨(key, v) :: S.entries⟩) ∧
    (∀ (C : Combinations) (key v : Str), validName key = .ok () →
        (C.sequences.get key).isSome = true →
        C.insert key v = .error (.keyIsInSequences key)) ∧
    (∀ (C : Combinations) (key v : Str), validName key = .ok () →
        C.sequences.get key = none → (alookup C.combinations key).isSome = true →
        C.insert key v = .error (.keyIsInCombinations key)) ∧
    (∀ (C : Combinations) (key v : Str) (C' : Combinations),
        (∀ kv ∈ C.combinations, C.sequences.get kv.1 = none) →
        C.insert key v = .ok C' →
        ∀ kv ∈ C'.combinations, C'.sequences.get kv.1 = none) := by
  refine ⟨?_, ?_, ?_, ?_, ?_⟩
  · intro S key v hname hin
    simp only [Sequences.insert, hname]
    cases h : S.get key with
    | none => rw [h] at hin; simp at hin
    | some t => rfl
  · intro S key v S' h
    unfold Sequences.insert at h
    cases hname : validName key with
    | error e => rw [hname] at h; cases h
    | ok u =>
      rw [hname] at h
      cases hget : S.get key with
      | some t => rw [hget] at h; cases h
      | none => rw [hget] at h; cases h; exact ⟨rfl, rfl⟩
  · intro C key v hname hin
    simp only [Combinations.insert, hname, hin, if_true]
  · intro C key v hname hseq hin
    simp only [Combinations.insert, hname, hseq, hin, Option.isSome_none,
      Bool.false_eq_true, if_false, if_true]
  · intro C key v C' hdisj h
    unfold Combinations.insert at h
    cases hname : validName key with
    | error e => rw [hname] at h; cases h
    | ok u =>
      rw [hname] at h
      cases hseq : (C.sequences.get key).isSome with
      | true => rw [hseq] at h; simp at h
      | false =>
        rw [hseq] at h
        cases hcomb : (alookup C.combinations key).isSome with
        | true => rw [hcomb] at h; simp at h
        | false =>
          rw [hcomb] at h
          simp only [Bool.false_eq_true, if_false] at h
          cases hdec : Combinations.decompose v with
          | error e => rw [hdec] at h; cases h
          | ok cmds =>
            rw [hdec] at h
            dsimp only at h
            cases hfind : cmds.find? (fun cmd => (C.sequences.get cmd.name).isNone) with
            | some cmd => rw [hfind] at h; cases h
            | none =>
              rw [hfind] at h
              cases h
              intro kv hkv
              rcases List.mem_cons.1 hkv with hkv | hkv
              · subst hkv
                exact Option.not_isSome_iff_eq_none.1 (by simp [hseq])
              · exact hdisj kv hkv

/-- Witness for C6's amended theorem: the name-conflict scenario of the
spec (inserting combination key `A` over sequence `A` fails with
`KeyIsInSequences`). -/
theorem c6_witness :
    Combinations.insert ⟨[], ⟨[(strOf "A", strOf "a")]⟩⟩ (strOf "A") (strOf "")
      = .error (.keyIsInSequences (strOf "A")) := by
  exact c6_key_uniqueness.2.2.1 ⟨[], ⟨[(strOf "A", strOf "a")]⟩⟩
    (strOf "A") (strOf "") (by decide) (by decide)

/-- **C9 counterexample.** In a store with sequence `A` and combinations
`X → "A"`, `Y → "X"`, the command `X` decomposed from `Y`'s value has a name
that *is* a combination, yet `get_errors` still reports
`UnknownSequence("X")` — it checks every decomposed command against the
sequence store, with no combination-name exemption. -/
theorem c9_counterexample :
    (alookup [(strOf "X", strOf "A"), (strOf "Y", strOf "X")] (strOf "X")).isSome
      = true ∧
    Combinations.getErrorsList
        ⟨[(strOf "X", strOf "A"), (strOf "Y", strOf "X")],
          ⟨[(strOf "A", strOf "a")]⟩⟩
      = [.unknownSequence (strOf "X")] := by
  exact ⟨by decide, by decide⟩

/-- **C9 (amended).** `get_errors` never short-circuits: every invalid
combination key name, every sequence-store key-name error, every
decomposition failure, and — for every command decomposed from any
combination value, with no exemption for combination names — every
invalid command name and every reference absent from the sequence store
(reported with the distinct `UnknownSequence` error) appears in the
collected error list. -/
theorem c9_get_errors_complete (C : Combinations) :
    (∀ key v e, (key, v) ∈ C.combinations → validName key = .error e →
        e ∈ C.getErrorsList) ∧
    (∀ e, e ∈ C.sequences.getErrorsList → e ∈ C.getErrorsList) ∧
    (∀ key v e, (key, v) ∈ C.combinations → Combinations.decompose v = .error e →
        e ∈ C.getErrorsList) ∧
    (∀ key v cmds cmd, (key, v) ∈ C.combinations →
        Combinations.decompose v = .ok cmds → cmd ∈ cmds →
        validName cmd.name = .ok () → C.sequences.get cmd.name = none →
        ErrType.unknownSequence cmd.name ∈ C.getErrorsList) ∧
    (∀ key v cmds cmd e, (key, v) ∈ C.combinations →
        Combinations.decompose v = .ok cmds → cmd ∈ cmds →
        validName cmd.name = .error e → e ∈ C.getErrorsList) := by
  refine ⟨?_, ?_, ?_, ?_, ?_⟩
  · intro key v e hin hname
    apply List.mem_append_left
    apply List.mem_append_left
    exact List.mem_filterMap.2 ⟨key, List.mem_map.2 ⟨(key, v), hin, rfl⟩,
      by rw [hname]⟩
  · intro e he
    apply List.mem_append_left
    exact List.mem_append_right _ he
  · intro key v e hin hdec
    apply List.mem_append_right
    refine List.mem_flatMap.2 ⟨v, List.mem_map.2 ⟨(key, v), hin, rfl⟩, ?_⟩
    simp [Combinations.valueErrors, hdec]
  · intro key v cmds cmd hin hdec hcmd hname hget
    apply List.mem_append_right
    refine List.mem_flatMap.2 ⟨v, List.mem_map.2 ⟨(key, v), hin, rfl⟩, ?_⟩
    unfold Combinations.valueErrors
    rw [hdec]
    exact List.mem_flatMap.2 ⟨cmd, hcmd,
      by rw [hname, hget]; exact List.mem_singleton.2 rfl⟩
  · intro key v cmds cmd e hin hdec hcmd hname
    apply List.mem_append_right
    refine List.mem_flatMap.2 ⟨v, List.mem_map.2 ⟨(key, v), hin, rfl⟩, ?_⟩
    unfold Combinations.valueErrors
    rw [hdec]
    exact List.mem_flatMap.2 ⟨cmd, hcmd,
      by rw [hname]; exact List.mem_singleton.2 rfl⟩

/-- Witness for C9's amended theorem at the store of the source's
`get_errors` test: the dangling reference `C` in combination `Y` is
reported as `UnknownSequence("C")`. -/
theorem c9_witness :
    ErrType.unknownSequence (strOf "C") ∈ Combinations.getErrorsList
      ⟨[(strOf "X", strOf "A3 B~3..5"), (strOf "Y", strOf "A C3")],
        ⟨[(strOf "A", strOf "A1"), (strOf "B", strOf "B1")]⟩⟩ := by
  exact (c9_get_errors_complete _).2.2.2.1 (strOf "Y") (strOf "A C3")
    [⟨strOf "A", none⟩, ⟨strOf "C", some (.number 3)⟩]
    ⟨strOf "C", some (.number 3)⟩
    (by decide) (by decide) (by decide) (by decide) (by decide)

/-- A failed accumulator is absorbing for the spec-side pass step. -/
theorem specStep_absorb (resolve : Command → Nat → ROut × Nat) (cmd : Command)
    (o : ROut × Nat) (h : ∀ s k, o ≠ (.res (.ok s), k)) :
    specStep resolve o cmd = o := by
  obtain ⟨r, k⟩ := o
  cases r with
  | panic => rfl
  | fuelOut => rfl
  | res e =>
    cases e with
    | error e => rfl
    | ok s => exact absurd rfl (h s k)

/-- A failed accumulator is absorbing for the whole spec-side pass. -/
theorem foldl_specStep_absorb (resolve : Command → Nat → ROut × Nat) :
    ∀ (cmds : List Command) (o : ROut × Nat), (∀ s k, o ≠ (.res (.ok s), k)) →
      List.foldl (specStep resolve) o cmds = o := by
  intro cmds
  induction cmds with
  | nil => intro o _; rfl
  | cons cmd cmds ih =>
    intro o h
    rw [List.foldl_cons, specStep_absorb resolve cmd o h]
    exact ih o h

/-- The spec-side fold over a successful accumulator computes the
source-side pass and prepends the accumulated text. -/
theorem foldl_specStep_ok (resolve : Command → Nat → ROut × Nat) :
    ∀ (cmds : List Command) (s : Str) (k : Nat),
      List.foldl (specStep resolve) (.res (.ok s), k) cmds
        = match onceWith resolve cmds k with
          | (.res (.ok t), k') => (.res (.ok (s ++ t)), k')
          | other => other := by
  intro cmds
  induction cmds with
  | nil => intro s k; simp [onceWith]
  | cons cmd cmds ih =>
    intro s k
    rw [List.foldl_cons]
    cases hr : resolve cmd k with
    | mk r k₁ =>
      cases r with
      | panic =>
        rw [show specStep resolve (.res (.ok s), k) cmd = (.panic, k₁) by
          simp [specStep, hr]]
        rw [foldl_specStep_absorb resolve cmds _ (by intro s' k'; simp)]
        simp [onceWith, hr]
      | fuelOut =>
        rw [show specStep resolve (.res (.ok s), k) cmd = (.fuelOut, k₁) by
          simp [specStep, hr]]
        rw [foldl_specStep_absorb resolve cmds _ (by intro s' k'; simp)]
        simp [onceWith, hr]
      | res e =>
        cases e with
        | error e =>
          rw [show specStep resolve (.res (.ok s), k) cmd = (.res (.error e), k₁) by
            simp [specStep, hr]]
          rw [foldl_specStep_absorb resolve cmds _ (by intro s' k'; simp)]
          simp [onceWith, hr]
        | ok t =>
          rw [show specStep resolve (.res (.ok s), k) cmd = (.res (.ok (s ++ t)), k₁) by
            simp [specStep, hr]]
          rw [ih (s ++ t) k₁]
          simp only [onceWith, hr]
          cases ho : onceWith resolve cmds k₁ with
          | mk r₂ k₂ =>
            cases r₂ with
            | panic => rfl
            | fuelOut => rfl
            | res e₂ =>
              cases e₂ with
              | error e₂ => rfl
              | ok rest => simp [List.append_assoc]

/-- The spec-side pass (left fold over the nested commands) computes the
source-side inner collect. -/
theorem specPass_eq_onceWith (resolve : Command → Nat → ROut × Nat)
    (cmds : List Command) (k : Nat) :
    specPass resolve cmds k = onceWith resolve cmds k := by
  unfold specPass
  rw [foldl_specStep_ok]
  cases h : onceWith resolve cmds k with
  | mk r k' =>
    cases r with
    | panic => rfl
    | fuelOut => rfl
    | res e =>
      cases e with
      | error e => rfl
      | ok t => simp

/-- The spec-side repetition computes the source-side outer collect. -/
theorem specRepeat_eq_iterWith (pass : Nat → ROut × Nat) :
    ∀ (n k : Nat), specRepeat pass n k = iterWith pass n k := by
  intro n
  induction n with
  | zero => intro k; rfl
  | succ n ih =>
    intro k
    simp only [specRepeat, iterWith, ih]

/-- **C1.** Combination resolution: when the command's name is a
combination, the resolver decomposes the stored value by whitespace
splitting and, for each of the command's repetition-count iterations,
resolves every nested command in left-to-right order (recursively, with the
argument list unchanged) and concatenates, the outer repetition wrapping
the fully-expanded inner pass (`specRepeat` of `specPass`, the spec-side
formulation); when the name is absent, it delegates entirely to the
sequence store. -/
theorem c1_combination_resolution (fuel : Nat) (C : Combinations)
    (cmd : Command) (args : List Str) (rng : Nat → Nat) (k : Nat) :
    (∀ v, alookup C.combinations cmd.name = some v →
        getSequenceCmd C args rng (fuel + 1) cmd k
          = match Combinations.decompose v with
            | .error e => (.res (.error e), k)
            | .ok cmds =>
              match cmd.getTimesR rng k with
              | none => (.panic, k)
              | some (n, k₁) =>
                specRepeat
                  (fun k' => specPass (getSequenceCmd C args rng fuel) cmds k')
                  n k₁) ∧
    (alookup C.combinations cmd.name = none →
        getSequenceCmd C args rng (fuel + 1) cmd k
          = C.sequences.getSequenceCmd cmd args rng k) := by
  constructor
  · intro v hv
    simp only [getSequenceCmd, hv]
    cases hd : Combinations.decompose v with
    | error e => rfl
    | ok cmds =>
      cases ht : cmd.getTimesR rng k with
      | none => rfl
      | some p =>
        obtain ⟨n, k₁⟩ := p
        have hps : (fun k' => specPass (getSequenceCmd C args rng fuel) cmds k')
            = (fun k' => onceWith (getSequenceCmd C args rng fuel) cmds k') :=
          funext (fun k' => specPass_eq_onceWith _ _ _)
        dsimp only
        rw [hps, specRepeat_eq_iterWith]
  · intro h
    simp only [getSequenceCmd, h]

/-- Witness for C1 at the store of the source's tests (`X → "A2 B3"` over
sequences `A → "A1"`, `B → "B1"`), resolving `X` with two repetitions. -/
theorem c1_witness :
    getSequenceCmd
        ⟨[(strOf "X", strOf "A2 B3")],
          ⟨[(strOf "A", strOf "A1"), (strOf "B", strOf "B1")]⟩⟩
        [] (fun _ => 0) 3 ⟨strOf "X", some (.number 2)⟩ 0
      = (.res (.ok (strOf "A1A1B1B1B1A1A1B1B1B1")), 0) := by
  have h := (c1_combination_resolution 2
    ⟨[(strOf "X", strOf "A2 B3")],
      ⟨[(strOf "A", strOf "A1"), (strOf "B", strOf "B1")]⟩⟩
    ⟨strOf "X", some (.number 2)⟩ [] (fun _ => 0) 0).1 (strOf "A2 B3")
    (by decide)
  exact h.trans (by decide)

/-- **C2.** Sequence resolution (modelled from the spec, see
`Sequences.getSequenceCmd`): when the command's name is a stored key, the
stored template is parsed by the Content Templater, rendered against the
argument list, and the rendered string repeated the command's repetition
count times by concatenation; when the name is absent, resolution fails
with the sequence-not-found error; a `<N>` variable renders exactly the
`N`-th argument when present. -/
theorem c2_sequence_resolution (S : Sequences) (cmd : Command)
    (args : List Str) (rng : Nat → Nat) (k : Nat) :
    (∀ t cont n k', S.get cmd.name = some t → contentFromStr t = some cont →
        cmd.getTimesR rng k = some (n, k') →
        S.getSequenceCmd cmd args rng k
          = (.res (.ok (strRepeat (cont.generateContent args) n)), k')) ∧
    (S.get cmd.name = none →
        S.getSequenceCmd cmd args rng k
          = (.res (.error (.sequenceNotExist cmd.name)), k)) ∧
    (∀ v s, args.get? v = some s →
        ContentItem.generateContent (.varRef v) args = s) := by
  refine ⟨?_, ?_, ?_⟩
  · intro t cont n k' ht hc htimes
    simp only [Sequences.getSequenceCmd, ht, hc, htimes]
  · intro h
    simp only [Sequences.getSequenceCmd, h]
  · intro v s h
    simp only [ContentItem.generateContent, h]

/-- Witness for C2 at a concrete store: template `x<0>y` under key `A`,
argument list `["Q"]`, two repetitions. -/
theorem c2_witness :
    Sequences.getSequenceCmd ⟨[(strOf "A", strOf "x<0>y")]⟩
        ⟨strOf "A", some (.number 2)⟩ [strOf "Q"] (fun _ => 0) 0
      = (.res (.ok (strOf "xQyxQy")), 0) := by
  have h := (c2_sequence_resolution ⟨[(strOf "A", strOf "x<0>y")]⟩
    ⟨strOf "A", some (.number 2)⟩ [strOf "Q"] (fun _ => 0) 0).1
    (strOf "x<0>y")
    ⟨[.value (strOf "x"), .varRef 0, .value (strOf "y")]⟩ 2 0
    (by decide) (by decide) (by decide)
  exact h.trans (by decide)

/-- A successful association-list lookup yields a member of the list. -/
theorem alookup_mem :
    ∀ (l : List (Str × Str)) (key v : Str), alookup l key = some v → (key, v) ∈ l := by
  intro l
  induction l with
  | nil => intro key v h; cases h
  | cons kv rest ih =>
    intro key v h
    obtain ⟨a, b⟩ := kv
    simp only [alookup] at h
    split at h
    · rename_i ha
      cases h
      subst ha
      exact List.mem_cons_self _ _
    · exact List.mem_cons_of_mem _ (ih key v h)

/-- Inversion of a successful `Combinations::insert`: the new entry is
prepended, the key was absent from the sequence store, and the value
decomposes with every referenced name a sequence key. -/
theorem insert_ok_inversion {C : Combinations} {key value : Str}
    {C' : Combinations} (h : C.insert key value = .ok C') :
    C' = ⟨(key, value) :: C.combinations, C.sequences⟩ ∧
    C.sequences.get key = none ∧
    ∃ cmds, Combinations.decompose value = .ok cmds ∧
      ∀ cmd ∈ cmds, (C.sequences.get cmd.name).isSome = true := by
  unfold Combinations.insert at h
  cases hname : validName key with
  | error e => rw [hname] at h; cases h
  | ok u =>
    rw [hname] at h
    cases hseq : (C.sequences.get key).isSome with
    | true => rw [hseq] at h; simp at h
    | false =>
      rw [hseq] at h
      cases hcomb : (alookup C.combinations key).isSome with
      | true => rw [hcomb] at h; simp at h
      | false =>
        rw [hcomb] at h
        simp only [Bool.false_eq_true, if_false] at h
        cases hdec : Combinations.decompose value with
        | error e => rw [hdec] at h; cases h
        | ok cmds =>
          rw [hdec] at h
          dsimp only at h
          cases hfind : cmds.find? (fun cmd => (C.sequences.get cmd.name).isNone) with
          | some cmd => rw [hfind] at h; cases h
          | none =>
            rw [hfind] at h
            cases h
            refine ⟨rfl, Option.not_isSome_iff_eq_none.1 (by simp [hseq]),
              cmds, rfl, ?_⟩
            intro cmd hcmd
            have hnp := List.find?_eq_none.1 hfind cmd hcmd
            cases hgo : C.sequences.get cmd.name with
            | none => exact absurd (by simp [hgo]) hnp
            | some t => simp

/-- Every store reachable through `Combinations::new` / `insert` satisfies
the store invariant. -/
theorem built_goodStore {S : Sequences} {C : Combinations} (h : Built S C) :
    goodStore C = true := by
  induction h with
  | base => rfl
  | step key value hb hins ih =>
    obtain ⟨hC', hseq, cmds, hdec, hall⟩ := insert_ok_inversion hins
    subst hC'
    simp only [goodStore, List.all_cons, Bool.and_eq_true] at ih ⊢
    refine ⟨⟨?_, ?_⟩, ?_⟩
    · rw [hdec]
      exact List.all_eq_true.2 hall
    · simp [Sequences.get] at hseq ⊢
      rw [hseq]
    · exact List.all_eq_true.2 (fun kv hkv => (List.all_eq_true.1 ih) kv hkv)

/-- Under the store invariant, a combination's stored value decomposes and
references only sequence keys. -/
theorem goodStore_decompose {C : Combinations} (hg : goodStore C = true)
    {name v : Str} (hl : alookup C.combinations name = some v) :
    ∃ cmds, Combinations.decompose v = .ok cmds ∧
      ∀ cmd ∈ cmds, (C.sequences.get cmd.name).isSome = true := by
  have hmem := alookup_mem _ _ _ hl
  simp only [goodStore, List.all_eq_true] at hg
  have hkv := hg (name, v) hmem
  simp only [Bool.and_eq_true] at hkv
  obtain ⟨h1, _⟩ := hkv
  cases hdec : Combinations.decompose v with
  | error e => rw [hdec] at h1; cases h1
  | ok cmds =>
    rw [hdec] at h1
    exact ⟨cmds, rfl, fun cmd hcmd => (List.all_eq_true.1 h1) cmd hcmd⟩

/-- Under the store invariant, a sequence key is never a combination key. -/
theorem goodStore_seq_not_comb {C : Combinations} (hg : goodStore C = true)
    {name : Str} (hs : (C.sequences.get name).isSome = true) :
    alookup C.combinations name = none := by
  cases hl : alookup C.combinations name with
  | none => rfl
  | some w =>
    have hmem := alookup_mem _ _ _ hl
    simp only [goodStore, List.all_eq_true] at hg
    have hkv := hg (name, w) hmem
    simp only [Bool.and_eq_true] at hkv
    have h2 := hkv.2
    cases hgo : C.sequences.get name with
    | none => rw [hgo] at hs; cases hs
    | some t => rw [hgo] at h2; cases h2

/-- Sequence-store resolution never reports fuel exhaustion (it does not
recurse). -/
theorem seq_getSequenceCmd_not_fuelOut (S : Sequences) (cmd : Command)
    (args : List Str) (rng : Nat → Nat) (k : Nat) :
    (S.getSequenceCmd cmd args rng k).1 ≠ .fuelOut := by
  unfold Sequences.getSequenceCmd
  split
  · simp
  · split
    · simp
    · split
      · simp
      · simp

/-- A pass over commands that are not combination keys is independent of
the surplus fuel above one unit. -/
theorem once_fuel (C : Combinations) (args : List Str) (rng : Nat → Nat)
    (fuel : Nat) :
    ∀ (cmds : List Command),
      (∀ cmd ∈ cmds, alookup C.combinations cmd.name = none) →
      ∀ k, onceWith (getSequenceCmd C args rng (fuel + 1)) cmds k
          = onceWith (getSequenceCmd C args rng 1) cmds k := by
  intro cmds
  induction cmds with
  | nil => intro _ k; rfl
  | cons cmd cmds ih =>
    intro hh k
    have h1 : getSequenceCmd C args rng (fuel + 1) cmd k
        = getSequenceCmd C args rng 1 cmd k := by
      simp only [getSequenceCmd, hh cmd (List.mem_cons_self _ _)]
    simp only [onceWith, h1]
    cases hr : getSequenceCmd C args rng 1 cmd k with
    | mk r k₁ =>
      cases r with
      | panic => rfl
      | fuelOut => rfl
      | res e =>
        cases e with
        | error e => rfl
        | ok s =>
          dsimp only
          rw [ih (fun c hc => hh c (List.mem_cons_of_mem _ hc)) k₁]

/-- A pass over commands that are not combination keys never reports fuel
exhaustion at one unit of fuel. -/
theorem once_not_fuelOut (C : Combinations) (args : List Str)
    (rng : Nat → Nat) :
    ∀ (cmds : List Command),
      (∀ cmd ∈ cmds, alookup C.combinations cmd.name = none) →
      ∀ k, (onceWith (getSequenceCmd C args rng 1) cmds k).1 ≠ .fuelOut := by
  intro cmds
  induction cmds with
  | nil => intro _ k; simp [onceWith]
  | cons cmd cmds ih =>
    intro hh k
    have hrs : getSequenceCmd C args rng 1 cmd k
        = C.sequences.getSequenceCmd cmd args rng k := by
      simp only [getSequenceCmd, hh cmd (List.mem_cons_self _ _)]
    cases hr : getSequenceCmd C args rng 1 cmd k with
    | mk r k₁ =>
      have hnf : r ≠ .fuelOut := by
        have hs := seq_getSequenceCmd_not_fuelOut C.sequences cmd args rng k
        rw [← hrs, hr] at hs
        exact hs
      cases r with
      | panic => simp [onceWith, hr]
      | fuelOut => exact absurd rfl hnf
      | res e =>
        cases e with
        | error e => simp [onceWith, hr]
        | ok s =>
          simp only [onceWith, hr]
          cases ho : onceWith (getSequenceCmd C args rng 1) cmds k₁ with
          | mk r₂ k₂ =>
            have h₂ := ih (fun c hc => hh c (List.mem_cons_of_mem _ hc)) k₁
            rw [ho] at h₂
            cases r₂ with
            | panic => simp
            | fuelOut => exact absurd rfl h₂
            | res e₂ =>
              cases e₂ with
              | error e₂ => simp
              | ok rest => simp

/-- Iterating a pass that never reports fuel exhaustion never reports fuel
exhaustion. -/
theorem iter_not_fuelOut (pass : Nat → ROut × Nat)
    (hp : ∀ k, (pass k).1 ≠ .fuelOut) :
    ∀ (n k : Nat), (iterWith pass n k).1 ≠ .fuelOut := by
  intro n
  induction n with
  | zero => intro k; simp [iterWith]
  | succ n ih =>
    intro k
    cases hr : pass k with
    | mk r k₁ =>
      have hnf : r ≠ .fuelOut := by
        have := hp k
        rw [hr] at this
        exact this
      cases r with
      | panic => simp [iterWith, hr]
      | fuelOut => exact absurd rfl hnf
      | res e =>
        cases e with
        | error e => simp [iterWith, hr]
        | ok s =>
          simp only [iterWith, hr]
          cases ho : iterWith pass n k₁ with
          | mk r₂ k₂ =>
            have h₂ := ih k₁
            rw [ho] at h₂
            cases r₂ with
            | panic => simp
            | fuelOut => exact absurd rfl h₂
            | res e₂ =>
              cases e₂ with
              | error e₂ => simp
              | ok rest => simp

/-- One-step unfolding of `getSequenceCmd` at positive fuel. -/
theorem getSequenceCmd_succ (C : Combinations) (args : List Str)
    (rng : Nat → Nat) (fuel : Nat) (cmd : Command) (k : Nat) :
    getSequenceCmd C args rng (fuel + 1) cmd k
      = match alookup C.combinations cmd.name with
        | some v =>
          match Combinations.decompose v with
          | .error e => (.res (.error e), k)
          | .ok cmds =>
            match cmd.getTimesR rng k with
            | none => (.panic, k)
            | some (n, k₁) =>
              iterWith (fun k' => onceWith (getSequenceCmd C args rng fuel) cmds k')
                n k₁
        | none => C.sequences.getSequenceCmd cmd args rng k := rfl

/-- Under the store invariant, resolution with two units of fuel is a fixed
point: surplus fuel never changes the result (recursion is at most one
level deep). -/
theorem resolve_fuel_indep (C : Combinations) (hg : goodStore C = true)
    (cmd : Command) (args : List Str) (rng : Nat → Nat) (k : Nat)
    (fuel : Nat) :
    getSequenceCmd C args rng (fuel + 2) cmd k
      = getSequenceCmd C args rng 2 cmd k := by
  show getSequenceCmd C args rng (fuel + 1 + 1) cmd k
      = getSequenceCmd C args rng (1 + 1) cmd k
  rw [getSequenceCmd_succ C args rng (fuel + 1) cmd k,
    getSequenceCmd_succ C args rng 1 cmd k]
  cases hl : alookup C.combinations cmd.name with
  | none => simp only [hl]
  | some v =>
    obtain ⟨cmds, hdec, hall⟩ := goodStore_decompose hg hl
    have hnone : ∀ cmd' ∈ cmds, alookup C.combinations cmd'.name = none :=
      fun cmd' hc => goodStore_seq_not_comb hg (hall cmd' hc)
    have hpass :
        (fun k' => onceWith (getSequenceCmd C args rng (fuel + 1)) cmds k')
          = (fun k' => onceWith (getSequenceCmd C args rng 1) cmds k') :=
      funext (fun k' => once_fuel C args rng fuel cmds hnone k')
    simp only [hl, hdec]
    rw [hpass]

/-- Under the store invariant, resolution with two units of fuel never
reports fuel exhaustion: it terminates within depth two for every command
and argument list. -/
theorem resolve_two_not_fuelOut (C : Combinations) (hg : goodStore C = true)
    (cmd : Command) (args : List Str) (rng : Nat → Nat) (k : Nat) :
    (getSequenceCmd C args rng 2 cmd k).1 ≠ .fuelOut := by
  show (getSequenceCmd C args rng (1 + 1) cmd k).1 ≠ .fuelOut
  rw [getSequenceCmd_succ C args rng 1 cmd k]
  cases hl : alookup C.combinations cmd.name with
  | none =>
    simp only [hl]
    exact seq_getSequenceCmd_not_fuelOut C.sequences cmd args rng k
  | some v =>
    obtain ⟨cmds, hdec, hall⟩ := goodStore_decompose hg hl
    have hnone : ∀ cmd' ∈ cmds, alookup C.combinations cmd'.name = none :=
      fun cmd' hc => goodStore_seq_not_comb hg (hall cmd' hc)
    simp only [hl, hdec]
    cases ht : cmd.getTimesR rng k with
    | none => simp
    | some p =>
      obtain ⟨n, k₁⟩ := p
      exact iter_not_fuelOut _ (fun k' => once_not_fuelOut C args rng cmds hnone k') n k₁

/-- **C10.** Invariant of reachable stores: every store obtained from
`Combinations::new` and successful `insert`s (the sequence store fixed)
satisfies the invariant that every referenced name is a sequence key and no
combination key is a sequence key; consequently resolution recurses at most
one level deep — two units of fuel are a fixed point — and terminates
(never exhausts fuel) for every command, argument list and random stream. -/
theorem c10_reachable_stores_terminate (S : Sequences) (C : Combinations)
    (h : Built S C) :
    goodStore C = true ∧
    (∀ (cmd : Command) (args : List Str) (rng : Nat → Nat) (k fuel : Nat),
      getSequenceCmd C args rng (fuel + 2) cmd k
        = getSequenceCmd C args rng 2 cmd k) ∧
    (∀ (cmd : Command) (args : List Str) (rng : Nat → Nat) (k : Nat),
      (getSequenceCmd C args rng 2 cmd k).1 ≠ .fuelOut) := by
  have hg := built_goodStore h
  exact ⟨hg,
    fun cmd args rng k fuel => resolve_fuel_indep C hg cmd args rng k fuel,
    fun cmd args rng k => resolve_two_not_fuelOut C hg cmd args rng k⟩

/-- Witness for C10 at the built store with sequence `A → "a"` and
combination `X → "A2"`. -/
theorem c10_witness :
    goodStore ⟨[(strOf "X", strOf "A2")], ⟨[(strOf "A", strOf "a")]⟩⟩ = true ∧
    getSequenceCmd ⟨[(strOf "X", strOf "A2")], ⟨[(strOf "A", strOf "a")]⟩⟩
        [] (fun _ => 0) (1 + 2) ⟨strOf "X", none⟩ 0
      = getSequenceCmd ⟨[(strOf "X", strOf "A2")], ⟨[(strOf "A", strOf "a")]⟩⟩
          [] (fun _ => 0) 2 ⟨strOf "X", none⟩ 0 ∧
    (getSequenceCmd ⟨[(strOf "X", strOf "A2")], ⟨[(strOf "A", strOf "a")]⟩⟩
        [] (fun _ => 0) 2 ⟨strOf "X", none⟩ 0).1 ≠ .fuelOut := by
  have hb : Built ⟨[(strOf "A", strOf "a")]⟩
      ⟨[(strOf "X", strOf "A2")], ⟨[(strOf "A", strOf "a")]⟩⟩ :=
    Built.step (strOf "X") (strOf "A2") Built.base (by decide)
  have h := c10_reachable_stores_terminate ⟨[(strOf "A", strOf "a")]⟩
    ⟨[(strOf "X", strOf "A2")], ⟨[(strOf "A", strOf "a")]⟩⟩ hb
  exact ⟨h.1, h.2.1 ⟨strOf "X", none⟩ [] (fun _ => 0) 0 1,
    h.2.2 ⟨strOf "X", none⟩ [] (fun _ => 0) 0⟩

/-- Segments accumulated by the `Content::from` scan are never dropped in a
successful parse. -/
theorem contentFromAux_mem_mono :
    ∀ (cs : List Char) (cont : List ContentItem) (last vbuf : Str)
      (readVar : Bool) (res : List ContentItem),
      contentFromAux cs cont last vbuf readVar = some res →
      ∀ i ∈ cont, i ∈ res := by
  intro cs
  induction cs with
  | nil =>
    intro cont last vbuf readVar res h i hi
    simp only [contentFromAux] at h
    cases h
    exact List.mem_append_left _ hi
  | cons c cs ih =>
    intro cont last vbuf readVar res h i hi
    simp only [contentFromAux] at h
    cases readVar with
    | false =>
      simp only [Bool.false_eq_true, if_false] at h
      by_cases hc : c = '<'
      · rw [if_pos hc] at h
        exact ih cont last vbuf true res h i hi
      · rw [if_neg hc] at h
        exact ih cont (last ++ [c]) vbuf false res h i hi
    | true =>
      simp only [if_true] at h
      by_cases hnum : charIsNumeric c = true
      · rw [if_pos hnum] at h
        exact ih cont last (vbuf ++ [c]) true res h i hi
      · rw [if_neg hnum] at h
        by_cases hgt : c = '>'
        · rw [if_pos hgt] at h
          by_cases hvb : vbuf ≠ []
          · rw [if_pos hvb] at h
            cases hp : parseUsize vbuf with
            | none => rw [hp] at h; cases h
            | some v =>
              rw [hp] at h
              exact ih _ [] [] false res h i (List.mem_append_left _ hi)
          · rw [if_neg hvb] at h
            exact ih cont (last ++ ['<', '>']) vbuf false res h i hi
        · rw [if_neg hgt] at h
          exact ih cont (last ++ '<' :: (vbuf ++ [c])) [] false res h i hi

/-- The round-trip invariant of the `Content::from` scan: if the parse
succeeds, contains no variable segments, and does not end inside a
placeholder, then rendering the result against no arguments reproduces the
already-rendered prefix, the pending buffers and the unscanned input. -/
theorem contentFromAux_roundtrip :
    ∀ (cs : List Char) (cont : List ContentItem) (last vbuf : Str)
      (readVar : Bool) (res : List ContentItem),
      contentFromAux cs cont last vbuf readVar = some res →
      (∀ i ∈ res, i.isValue = true) →
      scanState cs readVar = false →
      (readVar = false → vbuf = []) →
      Content.generateContent ⟨res⟩ []
        = Content.generateContent ⟨cont⟩ [] ++ last
            ++ (if readVar then '<' :: vbuf else []) ++ cs := by
  intro cs
  induction cs with
  | nil =>
    intro cont last vbuf readVar res h hall hscan hv
    simp only [contentFromAux] at h
    cases h
    have hr : readVar = false := hscan
    subst hr
    simp [Content.generateContent, ContentItem.generateContent]
  | cons c cs ih =>
    intro cont last vbuf readVar res h hall hscan hv
    simp only [contentFromAux] at h
    simp only [scanState] at hscan
    cases readVar with
    | false =>
      have hvb : vbuf = [] := hv rfl
      subst hvb
      simp only [Bool.false_eq_true, if_false] at h hscan
      by_cases hc : c = '<'
      · rw [if_pos hc] at h
        subst hc
        rw [show (('<' : Char) == '<') = true from rfl] at hscan
        have hres := ih cont last [] true res h hall hscan (fun hf => by cases hf)
        simpa [List.append_assoc] using hres
      · rw [if_neg hc] at h
        rw [show ((c : Char) == '<') = false from by simpa using hc] at hscan
        have hres := ih cont (last ++ [c]) [] false res h hall hscan (fun _ => rfl)
        simpa [List.append_assoc] using hres
    | true =>
      simp only [if_true] at h hscan
      by_cases hnum : charIsNumeric c = true
      · rw [if_pos hnum] at h
        rw [hnum] at hscan
        have hres := ih cont last (vbuf ++ [c]) true res h hall hscan
          (fun hf => by cases hf)
        simpa [List.append_assoc] using hres
      · rw [if_neg hnum] at h
        have hnum' : charIsNumeric c = false := by
          cases hcn : charIsNumeric c with
          | true => exact absurd hcn hnum
          | false => rfl
        rw [hnum'] at hscan
        by_cases hgt : c = '>'
        · rw [if_pos hgt] at h
          subst hgt
          by_cases hvb : vbuf = []
          · rw [if_neg (by simpa using hvb)] at h
            subst hvb
            have hres := ih cont (last ++ ['<', '>']) [] false res h hall hscan
              (fun _ => rfl)
            simpa [List.append_assoc] using hres
          · rw [if_pos (by simpa using hvb)] at h
            cases hp : parseUsize vbuf with
            | none => rw [hp] at h; cases h
            | some v =>
              rw [hp] at h
              have hmem : ContentItem.varRef v ∈ res :=
                contentFromAux_mem_mono cs _ [] [] false res h (.varRef v)
                  (by simp)
              have hvf := hall _ hmem
              simp [ContentItem.isValue] at hvf
        · rw [if_neg hgt] at h
          have hres := ih cont (last ++ '<' :: (vbuf ++ [c])) [] false res h hall
            hscan (fun _ => rfl)
          simpa [List.append_assoc] using hres

/-- **C7 (amended).** Content round trip: for every ASCII string whose
parse succeeds with no variable segments and whose scan does not end inside
an unterminated placeholder, rendering the parsed Content against the empty
argument list reproduces the string exactly. -/
theorem c7_roundtrip_no_variables (s : Str) (cont : Content)
    (_hascii : ∀ c ∈ s, c.toNat < 128)
    (hp : contentFromStr s = some cont)
    (hnv : cont.items.all ContentItem.isValue = true)
    (hscan : scanState s false = false) :
    cont.generateContent [] = s := by
  unfold contentFromStr at hp
  cases haux : contentFromAux s [] [] [] false with
  | none => rw [haux] at hp; cases hp
  | some res =>
    rw [haux] at hp
    simp only [Option.map_some'] at hp
    have hc : cont = ⟨res⟩ := by
      injection hp with hh
      exact hh.symm
    subst hc
    have h := contentFromAux_roundtrip s [] [] [] false res haux
      (fun i hi => List.all_eq_true.1 hnv i hi) hscan (fun _ => rfl)
    simpa [Content.generateContent] using h

/-- Witness for C7's amended theorem on the template `a<>b` (a benign
malformed placeholder that stays literal). -/
theorem c7_witness :
    Content.generateContent ⟨[.value (strOf "a<>b")]⟩ [] = strOf "a<>b" := by
  exact c7_roundtrip_no_variables (strOf "a<>b") ⟨[.value (strOf "a<>b")]⟩
    (by decide) (by decide) (by decide) (by decide)

/-- An alphabetic character is not an ASCII digit. -/
theorem alpha_not_digit (c : Char) (h : charIsAlphabetic c = true) :
    charIsAsciiDigit c = false := by
  cases hd : charIsAsciiDigit c with
  | false => rfl
  | true =>
    exfalso
    simp only [charIsAlphabetic, Bool.or_eq_true, Bool.and_eq_true,
      decide_eq_true_eq] at h
    simp only [charIsAsciiDigit, Bool.and_eq_true, decide_eq_true_eq] at hd
    omega

/-- An ASCII digit is not the dot character. -/
theorem digit_ne_dot (c : Char) (h : charIsAsciiDigit c = true) : c ≠ '.' := by
  intro he
  subst he
  simp [charIsAsciiDigit] at h

/-- An ASCII digit is not the plus character. -/
theorem digit_ne_plus (c : Char) (h : charIsAsciiDigit c = true) : c ≠ '+' := by
  intro he
  subst he
  simp [charIsAsciiDigit] at h

/-- `Nat.digitChar` of a base-10 digit is an ASCII digit character. -/
theorem digitChar_isDigit {d : Nat} (h : d < 10) :
    charIsAsciiDigit (Nat.digitChar d) = true := by
  interval_cases d <;> decide

/-- `digitVal` inverts `Nat.digitChar` on base-10 digits. -/
theorem digitVal_digitChar {d : Nat} (h : d < 10) :
    digitVal (Nat.digitChar d) = d := by
  interval_cases d <;> decide

/-- Every character of a rendered number is an ASCII digit. -/
theorem natToStr_all_digits (n : Nat) :
    ∀ c ∈ natToStr n, charIsAsciiDigit c = true := by
  intro c hc
  unfold natToStr at hc
  by_cases h0 : n = 0
  · rw [if_pos h0] at hc
    simp at hc
    subst hc
    decide
  · rw [if_neg h0] at hc
    rw [List.mem_reverse] at hc
    obtain ⟨d, hd, rfl⟩ := List.mem_map.1 hc
    exact digitChar_isDigit (Nat.digits_lt_base (by norm_num) hd)

/-- A rendered number is never the empty string. -/
theorem natToStr_ne_nil (n : Nat) : natToStr n ≠ [] := by
  unfold natToStr
  by_cases h0 : n = 0
  · rw [if_pos h0]; simp
  · rw [if_neg h0]
    intro h
    have hl := congrArg List.length h
    simp only [List.length_reverse, List.length_map, List.length_nil] at hl
    exact (Nat.digits_ne_nil_iff_ne_zero.2 h0) (List.length_eq_zero.1 hl)

/-- The decimal-parsing fold evaluates the rendered digit list. -/
theorem foldl_digitChar :
    ∀ (l : List Nat), (∀ d ∈ l, d < 10) → ∀ a : Nat,
      List.foldl (fun x c => x * 10 + digitVal c) a ((l.map Nat.digitChar).reverse)
        = a * 10 ^ l.length + Nat.ofDigits 10 l := by
  intro l
  induction l with
  | nil => intro _ a; simp [Nat.ofDigits_nil]
  | cons d t ih =>
    intro hl a
    have hd : d < 10 := hl d (List.mem_cons_self _ _)
    have ht : ∀ x ∈ t, x < 10 := fun x hx => hl x (List.mem_cons_of_mem _ hx)
    simp only [List.map_cons, List.reverse_cons, List.foldl_append,
      List.foldl_cons, List.foldl_nil]
    rw [ih ht a, digitVal_digitChar hd, Nat.ofDigits_cons]
    simp only [List.length_cons, pow_succ]
    ring

/-- Parsing the decimal rendering of `n ≤ usize::MAX` recovers `n`. -/
theorem parseDigits_natToStr (n : Nat) (h : n ≤ USIZE_MAX) :
    parseDigits (natToStr n) = some n := by
  have hv : (natToStr n).foldl (fun a c => a * 10 + digitVal c) 0 = n := by
    unfold natToStr
    by_cases h0 : n = 0
    · rw [if_pos h0]; subst h0; decide
    · rw [if_neg h0]
      rw [foldl_digitChar (Nat.digits 10 n)
        (fun d hd => Nat.digits_lt_base (by norm_num) hd) 0]
      simp [Nat.ofDigits_digits]
  unfold parseDigits
  rw [if_neg (natToStr_ne_nil n),
    if_pos (List.all_eq_true.2 (natToStr_all_digits n))]
  simp only [hv, h, if_pos]

/-- `str::parse::<usize>` agrees with the digits-only parse when the input
does not start with a plus sign. -/
theorem parseUsize_eq_parseDigits (cs : Str) (h : cs.head? ≠ some '+') :
    parseUsize cs = parseDigits cs := by
  cases cs with
  | nil => rfl
  | cons c rest =>
    have hne : c ≠ '+' := by
      intro he
      subst he
      exact h rfl
    unfold parseUsize
    split
    · rename_i rest' heq
      injection heq with h1 h2
      exact absurd h1 hne
    · rfl

/-- A string containing a non-digit character fails the digits-only parse. -/
theorem parseDigits_none_of_nondigit {cs : Str} {c : Char} (hc : c ∈ cs)
    (hnd : charIsAsciiDigit c = false) : parseDigits cs = none := by
  unfold parseDigits
  rw [if_neg (by intro he; subst he; cases hc)]
  rw [if_neg (fun hall => by
    rw [List.all_eq_true.1 hall c hc] at hnd
    cases hnd)]

/-- `findIdx?` skips a prefix on which the predicate is false, advancing
the start index. -/
theorem findIdx?_append_all_false (p : Char → Bool) :
    ∀ (xs ys : List Char) (i : Nat), (∀ x ∈ xs, p x = false) →
      List.findIdx? p (xs ++ ys) i = List.findIdx? p ys (i + xs.length) := by
  intro xs
  induction xs with
  | nil => intro ys i _; simp
  | cons x xs ih =>
    intro ys i h
    rw [List.cons_append, List.findIdx?_cons,
      h x (List.mem_cons_self _ _)]
    simp only [Bool.false_eq_true, if_false]
    rw [ih ys (i + 1) (fun y hy => h y (List.mem_cons_of_mem _ hy))]
    congr 1
    simp [List.length_cons]
    omega

/-- `findIdx?` stops at a head satisfying the predicate. -/
theorem findIdx?_cons_true (p : Char → Bool) (x : Char) (xs : List Char)
    (i : Nat) (h : p x = true) : List.findIdx? p (x :: xs) i = some i := by
  rw [List.findIdx?_cons, h]
  simp

/-- `find("..")` over a dot-free prefix followed by `".."` yields the
prefix's length. -/
theorem findDotDot_append (xs : Str) (ys : Str) :
    (∀ x ∈ xs, x ≠ '.') →
    findDotDot (xs ++ '.' :: '.' :: ys) = some xs.length := by
  induction xs with
  | nil => intro _; simp [findDotDot]
  | cons x xs ih =>
    intro hx
    simp only [List.cons_append, findDotDot]
    rw [if_neg (by
      intro hand
      exact hx x (List.mem_cons_self _ _) hand.1)]
    simp only [List.append_eq]
    rw [ih (fun y hy => hx y (List.mem_cons_of_mem _ hy))]
    simp [List.length_cons]

/-- A name accepted by `valid_name` consists of alphabetic characters. -/
theorem validName_ok_all_alpha {name : Str} (h : validName name = .ok ()) :
    ∀ x ∈ name, charIsAlphabetic x = true := by
  unfold validName at h
  by_cases h0 : name = []
  · rw [if_pos h0] at h; cases h
  · rw [if_neg h0] at h
    by_cases ha : name.all charIsAlphabetic = true
    · exact List.all_eq_true.1 ha
    · rw [if_neg ha] at h; cases h

/-- Alphabetic characters of the embedding are ASCII. -/
theorem alpha_ascii (c : Char) (h : charIsAlphabetic c = true) :
    c.toNat < 128 := by
  simp only [charIsAlphabetic, Bool.or_eq_true, Bool.and_eq_true,
    decide_eq_true_eq] at h
  omega

/-- ASCII digit characters are ASCII. -/
theorem digit_ascii (c : Char) (h : charIsAsciiDigit c = true) :
    c.toNat < 128 := by
  simp only [charIsAsciiDigit, Bool.and_eq_true, decide_eq_true_eq] at h
  omega

/-- A found index is below the start index plus the list length. -/
theorem findIdx?_lt_length (p : Char → Bool) :
    ∀ (l : List Char) (i0 j : Nat),
      List.findIdx? p l i0 = some j → j < i0 + l.length := by
  intro l
  induction l with
  | nil => intro i0 j h; rw [List.findIdx?_nil] at h; cases h
  | cons x xs ih =>
    intro i0 j h
    rw [List.findIdx?_cons] at h
    by_cases hp : p x = true
    · rw [if_pos hp] at h
      cases h
      simp [List.length_cons]
    · rw [if_neg hp] at h
      have := ih (i0 + 1) j h
      simp only [List.length_cons]
      omega

/-- On ASCII input a character count is a byte index: `splitAtByte` agrees
with the character-level `take`/`drop`. -/
theorem splitAtByte_ascii :
    ∀ (s : Str) (i : Nat), (∀ c ∈ s, c.toNat < 128) → i ≤ s.length →
      splitAtByte i s = some (s.take i, s.drop i) := by
  intro s
  induction s with
  | nil =>
    intro i _ hi
    have h0 : i = 0 := Nat.le_zero.1 hi
    subst h0
    rfl
  | cons c cs ih =>
    intro i h hi
    cases i with
    | zero => rfl
    | succ i =>
      have hc : charUtf8Len c = 1 := by
        have hcc := h c (List.mem_cons_self _ _)
        unfold charUtf8Len
        rw [if_pos (by omega)]
      simp only [splitAtByte, hc]
      rw [if_pos (by omega)]
      have hrec := ih i (fun x hx => h x (List.mem_cons_of_mem _ hx))
        (by simpa using hi)
      simp only [Nat.add_sub_cancel]
      rw [hrec]
      rfl

/-- The byte-faithful parse restricts to the character-level parse on
ASCII input (where it never panics). -/
theorem commandFromStrBytes_ascii (s : Str) (h : ∀ c ∈ s, c.toNat < 128) :
    commandFromStrBytes s = some (commandFromStr s) := by
  unfold commandFromStrBytes commandFromStr
  cases hf : s.findIdx? charIsAsciiDigit with
  | none => rfl
  | some i =>
    have hi : i < 0 + s.length := findIdx?_lt_length _ s 0 i hf
    dsimp only
    rw [splitAtByte_ascii s i h (by omega)]

/-- The decimal rendering of `1`. -/
theorem natToStr_one : natToStr 1 = ['1'] := by
  unfold natToStr
  rw [if_neg one_ne_zero]
  rw [Nat.digits_def' (by norm_num : (1 : Nat) < 10) (by norm_num : 0 < 1)]
  norm_num
  decide

/-- Every character rendered by a valid Command is ASCII. -/
theorem commandToStr_ascii (c : Command) (h : isValidCommand c = true) :
    ∀ x ∈ commandToStr c, x.toNat < 128 := by
  obtain ⟨name, times⟩ := c
  simp only [isValidCommand, Bool.and_eq_true, decide_eq_true_eq] at h
  obtain ⟨hname, _⟩ := h
  have halpha := validName_ok_all_alpha hname
  intro x hx
  cases times with
  | none =>
    simp only [commandToStr] at hx
    exact alpha_ascii _ (halpha x hx)
  | some t =>
    simp only [commandToStr] at hx
    rcases List.mem_append.1 hx with hx | hx
    · exact alpha_ascii _ (halpha x hx)
    · cases t with
      | number n =>
        simp only [timesToStr] at hx
        exact digit_ascii _ (natToStr_all_digits n x hx)
      | range a b =>
        simp only [timesToStr] at hx
        rcases List.mem_append.1 hx with hx | hx
        · exact digit_ascii _ (natToStr_all_digits a x hx)
        · rcases List.mem_cons.1 hx with hx | hx
          · subst hx; decide
          · rcases List.mem_cons.1 hx with hx | hx
            · subst hx; decide
            · exact digit_ascii _ (natToStr_all_digits b x hx)

/-- **C8 counterexample.** The Command with the (per spec §3, Unicode-
alphabetic hence valid) name `é` and one fixed repetition renders to `é1`,
but parsing `é1` panics: the first-digit index `1` counts characters while
`&s[..1]` slices at byte `1`, inside the two-byte letter `é` — so
`parse(render(c)) = c` fails on this spec-valid Command. -/
theorem c8_counterexample :
    commandToStr ⟨['é'], some (.number 1)⟩ = ['é', '1'] ∧
    commandFromStrBytes ['é', '1'] = none := by
  constructor
  · show ['é'] ++ timesToStr (.number 1) = ['é', '1']
    simp [timesToStr, natToStr_one]
  · decide

/-- **C8 (amended).** Command round trip on the fragment where the source's
character-count index is a byte boundary: for every Command whose name is
non-empty ASCII-alphabetic, whose range satisfies `start ≤ end` and whose
counts are representable in `usize`, rendering it to text (name followed by
the repetition spec's text form) and parsing the result — both by the
character-level parse and by the byte-faithful parse, which never panics
here — yields the same Command. -/
theorem c8_command_roundtrip (c : Command) (h : isValidCommand c = true) :
    commandFromStr (commandToStr c) = .ok c ∧
    commandFromStrBytes (commandToStr c) = some (.ok c) := by
  have hmain : commandFromStr (commandToStr c) = .ok c := by
    obtain ⟨name, times⟩ := c
    simp only [isValidCommand, Bool.and_eq_true, decide_eq_true_eq] at h
    obtain ⟨hname, htimes⟩ := h
    have halpha : ∀ x ∈ name, charIsAlphabetic x = true :=
      validName_ok_all_alpha hname
    have hnodigit : ∀ x ∈ name, charIsAsciiDigit x = false :=
      fun x hx => alpha_not_digit x (halpha x hx)
    have hnameok : validName name = .ok () := hname
    cases times with
    | none =>
      simp only [commandToStr]
      unfold commandFromStr
      rw [List.findIdx?_eq_none_iff.2 hnodigit, hnameok]
    | some t =>
      cases t with
      | number n =>
        simp only [decide_eq_true_eq] at htimes
        simp only [commandToStr, timesToStr]
        obtain ⟨d, rest, hds⟩ := List.exists_cons_of_ne_nil (natToStr_ne_nil n)
        have hd : charIsAsciiDigit d = true := by
          apply natToStr_all_digits n
          rw [hds]
          exact List.mem_cons_self _ _
        unfold commandFromStr
        rw [hds, findIdx?_append_all_false _ name _ 0 hnodigit,
          findIdx?_cons_true _ _ _ _ hd]
        simp only [Nat.zero_add]
        rw [← hds, List.take_left, List.drop_left, hnameok]
        unfold timesFromStr
        rw [parseUsize_eq_parseDigits _ (by
          rw [hds]
          intro he
          injection he with he
          exact digit_ne_plus d hd he)]
        rw [parseDigits_natToStr n htimes]
      | range a b =>
        simp only [Bool.and_eq_true, decide_eq_true_eq] at htimes
        obtain ⟨hab, hbmax⟩ := htimes
        have hamax : a ≤ USIZE_MAX := le_trans hab hbmax
        simp only [commandToStr, timesToStr]
        obtain ⟨d, rest, hds⟩ := List.exists_cons_of_ne_nil (natToStr_ne_nil a)
        have hd : charIsAsciiDigit d = true := by
          apply natToStr_all_digits a
          rw [hds]
          exact List.mem_cons_self _ _
        unfold commandFromStr
        rw [findIdx?_append_all_false _ name _ 0 hnodigit]
        rw [hds, List.cons_append, findIdx?_cons_true _ _ _ _ hd]
        simp only [Nat.zero_add]
        rw [← List.cons_append, ← hds, List.take_left, List.drop_left, hnameok]
        unfold timesFromStr
        rw [parseUsize_eq_parseDigits _ (by
          rw [hds, List.cons_append, List.head?_cons]
          intro he
          injection he with he
          exact digit_ne_plus d hd he)]
        rw [parseDigits_none_of_nondigit
          (List.mem_append_right _ (List.mem_cons_self _ _)) (by decide)]
        rw [findDotDot_append (natToStr a) (natToStr b)
          (fun x hx => digit_ne_dot x (natToStr_all_digits a x hx))]
        dsimp only
        rw [List.take_left]
        rw [parseUsize_eq_parseDigits _ (by
          rw [hds]
          intro he
          injection he with he
          exact digit_ne_plus d hd he)]
        rw [parseDigits_natToStr a hamax]
        rw [List.drop_append 2]
        rw [show List.drop 2 ('.' :: '.' :: natToStr b) = natToStr b from rfl]
        rw [parseUsize_eq_parseDigits _ (by
          obtain ⟨db, restb, hdsb⟩ := List.exists_cons_of_ne_nil (natToStr_ne_nil b)
          have hdb : charIsAsciiDigit db = true := by
            apply natToStr_all_digits b
            rw [hdsb]
            exact List.mem_cons_self _ _
          rw [hdsb]
          intro he
          injection he with he
          exact digit_ne_plus db hdb he)]
        rw [parseDigits_natToStr b hbmax]
        dsimp only
        rw [if_pos hab]
  refine ⟨hmain, ?_⟩
  rw [commandFromStrBytes_ascii _ (commandToStr_ascii c h), hmain]

/-- Witness for C8's amended theorem at the concrete Command `B2..5`. -/
theorem c8_witness :
    commandFromStr (commandToStr ⟨strOf "B", some (.range 2 5)⟩)
        = .ok ⟨strOf "B", some (.range 2 5)⟩ ∧
    commandFromStrBytes (commandToStr ⟨strOf "B", some (.range 2 5)⟩)
        = some (.ok ⟨strOf "B", some (.range 2 5)⟩) := by
  exact c8_command_roundtrip ⟨strOf "B", some (.range 2 5)⟩ (by decide)

end SAT
